import Mathlib

/-!
Verification of the secp256k1 koblitz-curve package (sammyne/secp256k1).

The development shallowly embeds the Go package `koblitz`.  Field elements
(`fieldVal` in the source) are an external collaborator of the in-scope core:
they are modelled as residues in `ZMod P` (the spec's field-element contract:
arithmetic mod the curve prime with normalization before comparison, so in the
model `Normalize` is the identity and the deferred-reduction magnitudes
disappear).  Functions present in the source (`addZ1EqualsZ2`, `NAF`, `Add`,
`IsOnCurve`, `ScalarMult`, `ScalarBaseMult`, the affine/Jacobian converters)
are translated statement by statement; helpers that the source only calls
(`doubleJacobian`, `addJacobian`, `splitK`, `moduloReduce`, the field inverse)
are modelled from the spec, as marked in their doc comments.
-/

set_option maxRecDepth 40000

namespace Secp256k1

/-- The secp256k1 field prime, from `initS256` in the source. -/
def P : ℕ := 0xFFFFFFFFFFFFFFFFFFFFFFFFFFFFFFFFFFFFFFFFFFFFFFFFFFFFFFFEFFFFFC2F

/-- The secp256k1 group order, from `initS256` in the source. -/
def N : ℕ := 0xFFFFFFFFFFFFFFFFFFFFFFFFFFFFFFFEBAAEDCE6AF48A03BBFD25E8CD0364141

/-- Field elements: the spec's external field-element collaborator, modelled as
residues modulo the curve prime. -/
abbrev F := ZMod P

instance : Fact (1 < P) := ⟨by norm_num [P]⟩

/-- Half the order `N`, `secp256k1.halfOrder = Rsh(N, 1)` in the source. -/
def halfOrder : ℕ := N / 2

/-- The endomorphism constant β (`secp256k1.beta` in the source). -/
def beta : F :=
  (0x7AE96A2B657C07106E64479EAC3434E99CF0497512F58995C1396C28719501EE : F)

/-- Lattice constant `a1` from `initS256`. -/
def a1 : ℤ := 0x3086D221A7D46BCDE86C90E49284EB15

/-- Lattice constant `b1` from `initS256` (negative). -/
def b1 : ℤ := -0xE4437ED6010E88286F547FA90ABFE4C3

/-- Lattice constant `a2` from `initS256`. -/
def a2 : ℤ := 0x114CA50F7A8E2F3F657C1108D9D44CFD8

/-- Lattice constant `b2` from `initS256`. -/
def b2 : ℤ := 0x3086D221A7D46BCDE86C90E49284EB15

/-- Fuel-driven modular exponentiation by repeated squaring; executable model
of exponentiation by a 256-bit exponent. -/
def powMod : ℕ → ℕ → ℕ → ℕ → ℕ
  | 0, _, _, m => 1 % m
  | fuel + 1, b, e, m =>
    if e = 0 then 1 % m
    else
      let h := powMod fuel (b * b % m) (e / 2) m
      if e % 2 = 1 then h * b % m else h

/-- Modelled from the spec: the field-element `Inverse` operation is absent
from src; the field contract (§6) requires a multiplicative inverse mod `P`,
computed here via Fermat exponentiation `x^(P-2)` (so that `fInv 0 = 0`). -/
def fInv (x : F) : F := ((powMod 257 x.val (P - 2) P : ℕ) : F)

/-- Modelled from the spec: `doubleJacobian` is absent from src.  Per §4.2 it
is the standard Jacobian doubling formula specialized to `a = 0`, with the
degenerate case (`Y = 0`, a 2-torsion point, or an input at infinity)
producing the point at infinity `Z = 0`. -/
def doubleJacobian (x1 y1 z1 : F) : F × F × F :=
  if y1 = 0 ∨ z1 = 0 then (0, 0, 0)
  else
    let a := x1 * x1
    let b := y1 * y1
    let c := b * b
    let d := 2 * ((x1 + b) * (x1 + b) - a - c)
    let e := 3 * a
    let f := e * e
    let x3 := f - 2 * d
    let y3 := e * (d - x3) - 8 * c
    let z3 := 2 * y1 * z1
    (x3, y3, z3)

/-- Function `addZ1EqualsZ2` from the source: adds two Jacobian points known to share
the same `z` value.  The source normalizes `x1, y1, x2, y2` before the
comparisons; in the model field elements are always canonical so
normalization is the identity.  The intermediate-element sequence mirrors the
source line by line. -/
def addZ1EqualsZ2 (x1 y1 z1 x2 y2 : F) : F × F × F :=
  if x1 = x2 then
    if y1 = y2 then
      doubleJacobian x1 y1 z1
    else
      (0, 0, 0)
  else
    let negX1 := -x1
    let negY1 := -y1
    let a := negX1 + x2
    let b := a * a
    let c := negY1 + y2
    let d := c * c
    let e := x1 * b
    let negE := -e
    let f := x2 * b
    let x3 := -(e + f) + d
    let negX3 := -x3
    let fSubE := f + negE
    let y3partial := -(y1 * fSubE)
    let y3 := y3partial + (e + negX3) * c
    let z3 := z1 * a
    (x3, y3, z3)

/-- Modelled from the spec: `addJacobian` is absent from src.  Per §4.2: a
`Z = 0` operand acts as the identity; equal `Z` values delegate to the
equal-Z fast path; otherwise the general Jacobian addition formula applies,
with equal affine images redefined as doubling and opposite points giving the
point at infinity. -/
def addJacobian (x1 y1 z1 x2 y2 z2 : F) : F × F × F :=
  if z1 = 0 then (x2, y2, z2)
  else if z2 = 0 then (x1, y1, z1)
  else if z1 = z2 then addZ1EqualsZ2 x1 y1 z1 x2 y2
  else
    let z1z1 := z1 * z1
    let z2z2 := z2 * z2
    let u1 := x1 * z2z2
    let u2 := x2 * z1z1
    let s1 := y1 * z2 * z2z2
    let s2 := y2 * z1 * z1z1
    if u1 = u2 then
      if s1 = s2 then doubleJacobian x1 y1 z1 else (0, 0, 0)
    else
      let h := u2 - u1
      let r := s2 - s1
      let x3 := r * r - h * h * h - 2 * u1 * (h * h)
      let y3 := r * (u1 * (h * h) - x3) - s1 * (h * h * h)
      let z3 := h * z1 * z2
      (x3, y3, z3)

/-- Function `bigAffineToField` from the source: converts an affine point given as
big integers into field values (`SetByteSlice` of the big-endian bytes, i.e.
reduction mod `P`). -/
def bigAffineToField (x y : ℕ) : F × F := ((x : F), (y : F))

/-- State-passing view of `bigAffineToField`: the first component holds the
final values of the caller's two big-integer arguments (the source only reads
them via `Bytes()`), the second the produced field values. -/
def bigAffineToFieldST (x y : ℕ) : (ℕ × ℕ) × (F × F) :=
  ((x, y), bigAffineToField x y)

/-- Function `fieldJacobianToBigAffine` from the source, in state-passing form: the
source overwrites its field-element arguments in place (`x.Mul(&tempZ)`,
`y.Mul(...)`, `z.SetInt(1)`), so the first component holds the final values
of the caller's three field-element cells and the second the fresh big-integer
outputs. -/
def fieldJacobianToBigAffine (x y z : F) : (F × F × F) × (ℕ × ℕ) :=
  let zInv := fInv z
  let tempZ := zInv * zInv
  let xOut := x * tempZ
  let yOut := y * (tempZ * zInv)
  let zOut : F := 1
  ((xOut, yOut, zOut), (xOut.val, yOut.val))

/-- Function `Add` from the source: affine point addition with the `(0,0)` encoding of
the point at infinity handled by the two early returns. -/
def Add (x1 y1 x2 y2 : ℕ) : ℕ × ℕ :=
  if x1 = 0 ∧ y1 = 0 then (x2, y2)
  else if x2 = 0 ∧ y2 = 0 then (x1, y1)
  else
    let f1 := bigAffineToField x1 y1
    let f2 := bigAffineToField x2 y2
    let r := addJacobian f1.1 f1.2 1 f2.1 f2.2 1
    (fieldJacobianToBigAffine r.1 r.2.1 r.2.2).2

/-- Function `IsOnCurve` from the source: checks `y² = x³ + 7` over the field. -/
def IsOnCurve (x y : ℕ) : Bool :=
  let f := bigAffineToField x y
  let y2 := f.2 * f.2
  let result := f.1 * f.1 * f.1 + 7
  y2 == result

/-- One bit step of the `NAF` inner loop: given the carry flag, the current
bit and the next (more significant) bit, returns the emitted positive digit
bit, the emitted negative digit bit, and the outgoing carry, following the
branch structure of the source exactly. -/
def stepBit (carry cur next : Bool) : Bool × Bool × Bool :=
  if carry then
    if cur then (false, false, true)
    else if next then (false, true, true)
    else (true, false, false)
  else if cur then
    if next then (false, true, true)
    else (true, false, false)
  else (false, false, false)

/-- The bit following the head of a bit list, or the supplied fallback when
the list runs out (the source peeks at bit `j+1`, falling back to bit 0 of
the next byte). -/
def lookahead : List Bool → Bool → Bool
  | [], nb => nb
  | b :: _, _ => b

/-- Runs `stepBit` across a least-significant-first list of bits, with `nb`
the bit that follows the final list element.  Returns the accumulated
positive-digit value, negative-digit value, and final carry. -/
def nafBitsAux : Bool → List Bool → Bool → ℕ × ℕ × Bool
  | c, [], _ => (0, 0, c)
  | c, bit :: rest, nb =>
    let s := stepBit c bit (lookahead rest nb)
    let t := nafBitsAux s.2.2 rest nb
    ((if s.1 then 1 else 0) + 2 * t.1, (if s.2.1 then 1 else 0) + 2 * t.2.1, t.2.2)

/-- The eight bits of a byte, least significant first: the source consumes
`curByte & 1` and shifts right eight times. -/
def bitsOfByte (b : ℕ) : List Bool :=
  [b.testBit 0, b.testBit 1, b.testBit 2, b.testBit 3,
   b.testBit 4, b.testBit 5, b.testBit 6, b.testBit 7]

/-- Bit 0 of the head byte of a list, `false` when empty: the source's
`nextIsOne` at `j = 7`, which peeks at `k[i-1] & 1` and is `false` once
`i = 0`. -/
def lookaheadByte : List ℕ → Bool
  | [] => false
  | b :: _ => b.testBit 0

/-- The byte loop of `NAF`, over the input bytes taken least significant
first (the source iterates `i` from `len(k)-1` down to `0`).  Produces the
output byte lists (least significant first) and the final carry. -/
def nafCore : Bool → List ℕ → List ℕ × List ℕ × Bool
  | c, [] => ([], [], c)
  | c, b :: rest =>
    let t1 := nafBitsAux c (bitsOfByte b) (lookaheadByte rest)
    let t2 := nafCore t1.2.2 rest
    (t1.1 :: t2.1, t1.2.1 :: t2.2.1, t2.2.2)

/-- Function `NAF` from the source: returns the positive-digit and negative-digit byte
sequences (big-endian, like the input).  A final carry emits the extra
leading byte `1` (`retPos[0] = 1`); otherwise the leading padding byte is
trimmed from both outputs (`retPos[1:]`, `retNeg[1:]`). -/
def NAF (k : List ℕ) : List ℕ × List ℕ :=
  let t := nafCore false k.reverse
  if t.2.2 then (1 :: t.1.reverse, 0 :: t.2.1.reverse)
  else (t.1.reverse, t.2.1.reverse)

/-- Value of a little-endian (least-significant-first) byte list. -/
def leVal : List ℕ → ℕ
  | [] => 0
  | b :: rest => b + 256 * leVal rest

/-- Value of a big-endian byte list, as consumed by `big.Int.SetBytes`. -/
def beVal (k : List ℕ) : ℕ := leVal k.reverse

/-- Value of a least-significant-first bit list. -/
def bitsVal : List Bool → ℕ
  | [] => 0
  | b :: rest => (if b then 1 else 0) + 2 * bitsVal rest

/-- The concatenation of the bit lists of a little-endian byte list. -/
def bitsOfBytes : List ℕ → List Bool
  | [] => []
  | b :: rest => bitsOfByte b ++ bitsOfBytes rest

/-- Little-endian byte decomposition, structurally recursive on a fuel bound:
with `fuel ≥ n` it fully decomposes `n` (each division step at least halves a
positive argument). -/
def natLEAux : ℕ → ℕ → List ℕ
  | 0, _ => []
  | fuel + 1, n => if n = 0 then [] else n % 256 :: natLEAux fuel (n / 256)

/-- Little-endian byte decomposition of a natural number, dropping leading
zeros; model of `big.Int.Bytes` (up to the reversal performed by `natBE`). -/
def natLE (n : ℕ) : List ℕ := natLEAux n n

/-- Minimal big-endian byte representation of a natural number, as produced
by `big.Int.Bytes`. -/
def natBE (n : ℕ) : List ℕ := (natLE n).reverse

/-- Modelled from the spec: `moduloReduce` is absent from src; §4.5 specifies
it reduces an arbitrary-length input scalar into the range `[0, N)` before
use. -/
def moduloReduce (k : List ℕ) : List ℕ := natBE (beVal k % N)

/-- Modelled from the spec: `splitK` is absent from src.  Per §4.5 it
computes `c1 = round(b2·k/N)`, `c2 = round(−b1·k/N)` (rounding to nearest via
the added half order), `k1 = k − c1·a1 − c2·a2`, `k2 = −(c1·b1 + c2·b2)`, and
returns the magnitudes of `k1, k2` as big-endian bytes together with their
signs. -/
def splitK (k : List ℕ) : List ℕ × List ℕ × ℤ × ℤ :=
  let kInt : ℤ := (beVal k : ℤ)
  let c1 : ℤ := (b2 * kInt + (halfOrder : ℤ)) / (N : ℤ)
  let c2 : ℤ := (-b1 * kInt + (halfOrder : ℤ)) / (N : ℤ)
  let k1 : ℤ := kInt - c1 * a1 - c2 * a2
  let k2 : ℤ := -(c1 * b1 + c2 * b2)
  (natBE k1.natAbs, natBE k2.natAbs,
   if k1 < 0 then -1 else 1, if k2 < 0 then -1 else 1)

/-- One bit position of the `ScalarMult` combing loop: double the
accumulator, then conditionally add the first point (or its negation), then
conditionally add the second point (or its negation), mirroring the
`if/else if` pairs of the source. -/
def smBitStep (p1x p1y p1yNeg p2x p2y p2yNeg : F) (q : F × F × F)
    (d1p d1n d2p d2n : Bool) : F × F × F :=
  let q1 := doubleJacobian q.1 q.2.1 q.2.2
  let q2 :=
    if d1p then addJacobian q1.1 q1.2.1 q1.2.2 p1x p1y 1
    else if d1n then addJacobian q1.1 q1.2.1 q1.2.2 p1x p1yNeg 1
    else q1
  if d2p then addJacobian q2.1 q2.2.1 q2.2.2 p2x p2y 1
  else if d2n then addJacobian q2.1 q2.2.1 q2.2.2 p2x p2yNeg 1
  else q2

/-- The inner `j` loop of `ScalarMult`: eight bit steps per byte, most
significant bit first (the source tests `0x80` and shifts left). -/
def smByteStep (p1x p1y p1yNeg p2x p2y p2yNeg : F) (q : F × F × F)
    (b1p b1n b2p b2n : ℕ) : F × F × F :=
  (List.range 8).foldl
    (fun acc t =>
      smBitStep p1x p1y p1yNeg p2x p2y p2yNeg acc
        (b1p.testBit (7 - t)) (b1n.testBit (7 - t))
        (b2p.testBit (7 - t)) (b2n.testBit (7 - t)))
    q

/-- Function `ScalarMult` from the source: endomorphism split of the reduced scalar,
NAF recoding of both halves, and the left-to-right double-and-add combing
loop over the zero-padded NAF bytes, finished by conversion back to affine
big integers. -/
def ScalarMult (Bx By : ℕ) (k : List ℕ) : ℕ × ℕ :=
  let s := splitK (moduloReduce k)
  let k1 := s.1
  let k2 := s.2.1
  let signK1 := s.2.2.1
  let signK2 := s.2.2.2
  let p1 := bigAffineToField Bx By
  let p1x := p1.1
  let p1yInit := p1.2
  let p1yNegInit := -p1yInit
  let p2x := p1x * beta
  let p2yInit := p1yInit
  let p2yNegInit := -p2yInit
  let p1y := if signK1 = -1 then p1yNegInit else p1yInit
  let p1yNeg := if signK1 = -1 then p1yInit else p1yNegInit
  let p2y := if signK2 = -1 then p2yNegInit else p2yInit
  let p2yNeg := if signK2 = -1 then p2yInit else p2yNegInit
  let n1 := NAF k1
  let n2 := NAF k2
  let k1PosNAF := n1.1
  let k1NegNAF := n1.2
  let k2PosNAF := n2.1
  let k2NegNAF := n2.2
  let k1Len := k1PosNAF.length
  let k2Len := k2PosNAF.length
  let m := max k1Len k2Len
  let q :=
    (List.range m).foldl
      (fun acc i =>
        let b1p := if i < m - k1Len then 0 else k1PosNAF.getD (i - (m - k1Len)) 0
        let b1n := if i < m - k1Len then 0 else k1NegNAF.getD (i - (m - k1Len)) 0
        let b2p := if i < m - k2Len then 0 else k2PosNAF.getD (i - (m - k2Len)) 0
        let b2n := if i < m - k2Len then 0 else k2NegNAF.getD (i - (m - k2Len)) 0
        smByteStep p1x p1y p1yNeg p2x p2y p2yNeg acc b1p b1n b2p b2n)
      ((0 : F), (0 : F), (0 : F))
  (fieldJacobianToBigAffine q.1 q.2.1 q.2.2).2

/-- The `[window][byte]` table index pairs accessed by the `ScalarBaseMult`
loop: for each byte of the reduced scalar, window `diff + i` and byte value
`byteVal`. -/
def scalarBaseMultIndices (k : List ℕ) : List (ℕ × ℕ) :=
  let newK := moduloReduce k
  let diff := 32 - newK.length
  newK.enum.map (fun ib => (diff + ib.1, ib.2))

/-- Function `ScalarBaseMult` from the source, generic over the precomputed
`bytePoints` table (the table blob itself is external generated data, §6):
accumulates the table entry of each byte of the reduced scalar with
`addJacobian` and converts back to affine. -/
def ScalarBaseMult (table : List (List (F × F × F))) (k : List ℕ) : ℕ × ℕ :=
  let newK := moduloReduce k
  let diff := 32 - newK.length
  let q :=
    newK.enum.foldl
      (fun acc ib =>
        let pt := (table.getD (diff + ib.1) []).getD ib.2 ((0 : F), (0 : F), (0 : F))
        addJacobian acc.1 acc.2.1 acc.2.2 pt.1 pt.2.1 pt.2.2)
      ((0 : F), (0 : F), (0 : F))
  (fieldJacobianToBigAffine q.1 q.2.1 q.2.2).2

/-- Whether a NAF digit (positive or negative) is present at bit position `i`
of an accumulated `nafBitsAux` result. -/
def nafDigit (t : ℕ × ℕ × Bool) (i : ℕ) : Bool :=
  t.1.testBit i || t.2.1.testBit i

/-- Invariant of the `ScalarMult` accumulator when the input point is the
affine identity `(0, 0)`: both coordinates stay zero and `Z` is `0` or `1`. -/
def InvS (q : F × F × F) : Prop :=
  q.1 = 0 ∧ q.2.1 = 0 ∧ (q.2.2 = 0 ∨ q.2.2 = 1)

/-! ## Theorems -/

theorem testBit_bitCons_zero (b : Bool) (n : ℕ) :
    Nat.testBit ((if b then 1 else 0) + 2 * n) 0 = b := by
  cases b <;>
    simp [Nat.testBit_zero, Nat.add_mul_mod_self_left, Nat.mul_mod_right]

theorem testBit_bitCons_succ (b : Bool) (n : ℕ) (i : ℕ) :
    Nat.testBit ((if b then 1 else 0) + 2 * n) (i + 1) = Nat.testBit n i := by
  rw [Nat.testBit_add_one]
  congr 1
  cases b with
  | false => simp
  | true => simp; omega

theorem stepBit_balance : ∀ c v n : Bool,
    ((if (stepBit c v n).1 then (1 : ℤ) else 0) -
        (if (stepBit c v n).2.1 then 1 else 0) +
        2 * (if (stepBit c v n).2.2 then 1 else 0)) =
      (if v then 1 else 0) + (if c then 1 else 0) := by
  decide

theorem stepBit_not_both : ∀ c v n : Bool,
    ¬((stepBit c v n).1 = true ∧ (stepBit c v n).2.1 = true) := by
  decide

theorem stepBit_digit_carry : ∀ c v n : Bool,
    ((stepBit c v n).1 || (stepBit c v n).2.1) = true → (stepBit c v n).2.2 = n := by
  decide

theorem stepBit_self : ∀ v n : Bool,
    ((stepBit v v n).1 || (stepBit v v n).2.1) = false := by
  decide

theorem stepBit_last : ∀ c v : Bool,
    (stepBit c v false).2.2 = true →
      ((stepBit c v false).1 || (stepBit c v false).2.1) = false := by
  decide

theorem nafBitsAux_val (bits : List Bool) : ∀ c nb : Bool,
    ((nafBitsAux c bits nb).1 : ℤ) - ((nafBitsAux c bits nb).2.1 : ℤ) =
      (bitsVal bits : ℤ) + (if c then 1 else 0) -
        (if (nafBitsAux c bits nb).2.2 then 1 else 0) * 2 ^ bits.length := by
  have cast_ite : ∀ b : Bool, (((if b then 1 else 0 : ℕ)) : ℤ) = if b then 1 else 0 := by
    intro b; cases b <;> simp
  induction bits with
  | nil => intro c nb; simp [nafBitsAux, bitsVal]
  | cons bit rest ih =>
    intro c nb
    have hs := stepBit_balance c bit (lookahead rest nb)
    have iht := ih (stepBit c bit (lookahead rest nb)).2.2 nb
    simp only [nafBitsAux, bitsVal, List.length_cons]
    push_cast [cast_ite]
    linear_combination 2 * iht + hs

theorem nafBitsAux_lt (bits : List Bool) : ∀ c nb : Bool,
    (nafBitsAux c bits nb).1 < 2 ^ bits.length ∧
      (nafBitsAux c bits nb).2.1 < 2 ^ bits.length := by
  induction bits with
  | nil => intro c nb; simp [nafBitsAux]
  | cons bit rest ih =>
    intro c nb
    obtain ⟨h1, h2⟩ := ih (stepBit c bit (lookahead rest nb)).2.2 nb
    have hb1 : (if (stepBit c bit (lookahead rest nb)).1 then 1 else 0) ≤ 1 := by
      split <;> omega
    have hb2 : (if (stepBit c bit (lookahead rest nb)).2.1 then 1 else 0) ≤ 1 := by
      split <;> omega
    simp only [nafBitsAux, List.length_cons, pow_succ]
    omega

theorem nafBitsAux_disjoint (bits : List Bool) : ∀ (c nb : Bool) (i : ℕ),
    ¬((nafBitsAux c bits nb).1.testBit i = true ∧
      (nafBitsAux c bits nb).2.1.testBit i = true) := by
  induction bits with
  | nil => intro c nb i; simp [nafBitsAux]
  | cons bit rest ih =>
    intro c nb i
    cases i with
    | zero =>
      simp only [nafBitsAux, testBit_bitCons_zero]
      exact stepBit_not_both c bit (lookahead rest nb)
    | succ j =>
      simp only [nafBitsAux, testBit_bitCons_succ]
      exact ih (stepBit c bit (lookahead rest nb)).2.2 nb j

theorem nafBitsAux_nonadj (bits : List Bool) : ∀ c nb : Bool,
    (∀ i, ¬(nafDigit (nafBitsAux c bits nb) i = true ∧
            nafDigit (nafBitsAux c bits nb) (i + 1) = true)) ∧
    (∀ v rest2, bits = v :: rest2 → c = v →
      nafDigit (nafBitsAux c bits nb) 0 = false) ∧
    (nb = false → (nafBitsAux c bits nb).2.2 = true →
      nafDigit (nafBitsAux c bits nb) (bits.length - 1) = false) := by
  induction bits with
  | nil =>
    intro c nb
    refine ⟨?_, ?_, ?_⟩
    · intro i
      simp [nafBitsAux, nafDigit]
    · intro v rest2 h
      exact absurd h (by simp)
    · intro _ _
      simp [nafBitsAux, nafDigit]
  | cons bit rest ih =>
    intro c nb
    have hdig0 : nafDigit (nafBitsAux c (bit :: rest) nb) 0 =
        ((stepBit c bit (lookahead rest nb)).1 ||
          (stepBit c bit (lookahead rest nb)).2.1) := by
      simp only [nafDigit, nafBitsAux, testBit_bitCons_zero]
    have hdigS : ∀ j, nafDigit (nafBitsAux c (bit :: rest) nb) (j + 1) =
        nafDigit (nafBitsAux (stepBit c bit (lookahead rest nb)).2.2 rest nb) j := by
      intro j
      simp only [nafDigit, nafBitsAux, testBit_bitCons_succ]
    have hcarry : (nafBitsAux c (bit :: rest) nb).2.2 =
        (nafBitsAux (stepBit c bit (lookahead rest nb)).2.2 rest nb).2.2 := rfl
    refine ⟨?_, ?_, ?_⟩
    · intro i
      cases i with
      | zero =>
        rintro ⟨h0, h1⟩
        rw [hdig0] at h0
        have hc := stepBit_digit_carry c bit (lookahead rest nb) h0
        rw [hdigS 0] at h1
        cases rest with
        | nil =>
          simp [nafBitsAux, nafDigit] at h1
        | cons b tl =>
          have hb : (stepBit c bit (lookahead (b :: tl) nb)).2.2 = b := by
            rw [hc]; rfl
          have hz := (ih (stepBit c bit (lookahead (b :: tl) nb)).2.2 nb).2.1 b tl rfl hb
          rw [hz] at h1
          exact absurd h1 (by simp)
      | succ j =>
        rintro ⟨h0, h1⟩
        rw [hdigS j] at h0
        rw [hdigS (j + 1)] at h1
        exact (ih (stepBit c bit (lookahead rest nb)).2.2 nb).1 j ⟨h0, h1⟩
    · intro v rest2 heq hcv
      injection heq with hb hr
      subst hb
      subst hr
      rw [hdig0, hcv]
      exact stepBit_self bit (lookahead rest nb)
    · intro hnb hcf
      rw [hcarry] at hcf
      subst hnb
      cases rest with
      | nil =>
        have hred : (nafBitsAux (stepBit c bit (lookahead [] false)).2.2 [] false).2.2 =
            (stepBit c bit false).2.2 := rfl
        rw [hred] at hcf
        have hla : lookahead ([] : List Bool) false = false := rfl
        rw [hla] at hdig0
        show nafDigit (nafBitsAux c [bit] false) 0 = false
        rw [hdig0]
        exact stepBit_last c bit hcf
      | cons b tl =>
        have hlen : (bit :: b :: tl).length - 1 = tl.length + 1 := by simp
        rw [hlen, hdigS tl.length]
        have hz := (ih (stepBit c bit (lookahead (b :: tl) false)).2.2 false).2.2 rfl hcf
        simpa using hz

theorem nafBitsAux_append (l1 l2 : List Bool) : ∀ c nb : Bool,
    nafBitsAux c (l1 ++ l2) nb =
      ((nafBitsAux c l1 (lookahead l2 nb)).1 +
         2 ^ l1.length *
           (nafBitsAux (nafBitsAux c l1 (lookahead l2 nb)).2.2 l2 nb).1,
       (nafBitsAux c l1 (lookahead l2 nb)).2.1 +
         2 ^ l1.length *
           (nafBitsAux (nafBitsAux c l1 (lookahead l2 nb)).2.2 l2 nb).2.1,
       (nafBitsAux (nafBitsAux c l1 (lookahead l2 nb)).2.2 l2 nb).2.2) := by
  induction l1 with
  | nil =>
    intro c nb
    simp [nafBitsAux]
  | cons b tl ih =>
    intro c nb
    have hl : lookahead (tl ++ l2) nb = lookahead tl (lookahead l2 nb) := by
      cases tl <;> simp [lookahead]
    simp only [List.cons_append, nafBitsAux, List.append_eq, hl, ih, List.length_cons]
    simp only [Prod.mk.injEq]
    refine ⟨by ring, by ring, trivial⟩

theorem nafCore_length (r : List ℕ) : ∀ c : Bool,
    (nafCore c r).1.length = r.length ∧ (nafCore c r).2.1.length = r.length := by
  induction r with
  | nil => intro c; simp [nafCore]
  | cons b rest ih =>
    intro c
    obtain ⟨h1, h2⟩ :=
      ih (nafBitsAux c (bitsOfByte b) (lookaheadByte rest)).2.2
    simp [nafCore, h1, h2]

theorem bitsOfBytes_length (r : List ℕ) : (bitsOfBytes r).length = 8 * r.length := by
  induction r with
  | nil => simp [bitsOfBytes]
  | cons b rest ih =>
    simp only [bitsOfBytes, List.length_append, List.length_cons, ih]
    have : (bitsOfByte b).length = 8 := rfl
    rw [this]
    ring

theorem nafCore_flat (r : List ℕ) : ∀ c : Bool,
    leVal (nafCore c r).1 = (nafBitsAux c (bitsOfBytes r) false).1 ∧
    leVal (nafCore c r).2.1 = (nafBitsAux c (bitsOfBytes r) false).2.1 ∧
    (nafCore c r).2.2 = (nafBitsAux c (bitsOfBytes r) false).2.2 := by
  induction r with
  | nil =>
    intro c
    simp [nafCore, nafBitsAux, bitsOfBytes, leVal]
  | cons b rest ih =>
    intro c
    have hla : lookahead (bitsOfBytes rest) false = lookaheadByte rest := by
      cases rest <;> simp [bitsOfBytes, bitsOfByte, lookahead, lookaheadByte]
    obtain ⟨h1, h2, h3⟩ :=
      ih (nafBitsAux c (bitsOfByte b) (lookaheadByte rest)).2.2
    have h8 : (bitsOfByte b).length = 8 := rfl
    simp only [nafCore, bitsOfBytes, leVal]
    rw [nafBitsAux_append (bitsOfByte b) (bitsOfBytes rest) c false, hla, h8]
    refine ⟨?_, ?_, ?_⟩
    · rw [h1]; norm_num
    · rw [h2]; norm_num
    · rw [h3]

theorem bitsVal_byte : ∀ b : ℕ, b < 256 → bitsVal (bitsOfByte b) = b := by
  decide

theorem bitsVal_append (l1 l2 : List Bool) :
    bitsVal (l1 ++ l2) = bitsVal l1 + 2 ^ l1.length * bitsVal l2 := by
  induction l1 with
  | nil => simp [bitsVal]
  | cons b tl ih =>
    simp only [List.cons_append, bitsVal, List.append_eq, List.length_cons, ih]
    ring

theorem bitsVal_bitsOfBytes (r : List ℕ) (h : ∀ b ∈ r, b < 256) :
    bitsVal (bitsOfBytes r) = leVal r := by
  induction r with
  | nil => simp [bitsOfBytes, bitsVal, leVal]
  | cons b rest ih =>
    have hb : b < 256 := h b (by simp)
    have hrest : ∀ x ∈ rest, x < 256 := fun x hx => h x (by simp [hx])
    simp only [bitsOfBytes, leVal, bitsVal_append, bitsVal_byte b hb, ih hrest]
    have h8 : (bitsOfByte b).length = 8 := rfl
    rw [h8]
    norm_num

theorem leVal_append (l1 l2 : List ℕ) :
    leVal (l1 ++ l2) = leVal l1 + 256 ^ l1.length * leVal l2 := by
  induction l1 with
  | nil => simp [leVal]
  | cons b tl ih =>
    simp only [List.cons_append, leVal, List.append_eq, List.length_cons, ih]
    ring

theorem NAF_carry_false (k : List ℕ)
    (hc : (nafCore false k.reverse).2.2 = false) :
    beVal (NAF k).1 = (nafBitsAux false (bitsOfBytes k.reverse) false).1 ∧
    beVal (NAF k).2 = (nafBitsAux false (bitsOfBytes k.reverse) false).2.1 := by
  have hNAF : NAF k =
      ((nafCore false k.reverse).1.reverse, (nafCore false k.reverse).2.1.reverse) := by
    simp [NAF, hc]
  obtain ⟨h1, h2, _⟩ := nafCore_flat k.reverse false
  constructor
  · rw [hNAF]
    show leVal (nafCore false k.reverse).1.reverse.reverse = _
    rw [List.reverse_reverse]
    exact h1
  · rw [hNAF]
    show leVal (nafCore false k.reverse).2.1.reverse.reverse = _
    rw [List.reverse_reverse]
    exact h2

theorem NAF_carry_true (k : List ℕ)
    (hc : (nafCore false k.reverse).2.2 = true) :
    beVal (NAF k).1 =
      2 ^ (8 * k.length) * 1 + (nafBitsAux false (bitsOfBytes k.reverse) false).1 ∧
    beVal (NAF k).2 = (nafBitsAux false (bitsOfBytes k.reverse) false).2.1 := by
  have hNAF : NAF k =
      (1 :: (nafCore false k.reverse).1.reverse,
       0 :: (nafCore false k.reverse).2.1.reverse) := by
    simp [NAF, hc]
  obtain ⟨h1, h2, _⟩ := nafCore_flat k.reverse false
  obtain ⟨hl1, hl2⟩ := nafCore_length k.reverse false
  have hpow : (256 : ℕ) ^ k.length = 2 ^ (8 * k.length) := by
    rw [show (256 : ℕ) = 2 ^ 8 from rfl, ← pow_mul]
  constructor
  · rw [hNAF]
    show leVal (1 :: (nafCore false k.reverse).1.reverse).reverse = _
    rw [List.reverse_cons, List.reverse_reverse, leVal_append, h1, hl1,
      List.length_reverse, hpow]
    simp [leVal]
    ring
  · rw [hNAF]
    show leVal (0 :: (nafCore false k.reverse).2.1.reverse).reverse = _
    rw [List.reverse_cons, List.reverse_reverse, leVal_append, h2]
    simp [leVal]

/-- C2: for every byte sequence `k`, the integer reconstructed from the two
`NAF` output sequences (value of the positive-digit bits minus value of the
negative-digit bits) equals the big-endian value of `k` exactly. -/
theorem naf_reconstructs (k : List ℕ) (h : ∀ b ∈ k, b < 256) :
    (beVal (NAF k).1 : ℤ) - (beVal (NAF k).2 : ℤ) = (beVal k : ℤ) := by
  have hrev : ∀ b ∈ k.reverse, b < 256 := fun b hb => h b (List.mem_reverse.mp hb)
  have hval := nafBitsAux_val (bitsOfBytes k.reverse) false false
  have hbv := bitsVal_bitsOfBytes k.reverse hrev
  have hlen8 : (bitsOfBytes k.reverse).length = 8 * k.length := by
    rw [bitsOfBytes_length, List.length_reverse]
  obtain ⟨_, _, h3⟩ := nafCore_flat k.reverse false
  have hbk : (beVal k : ℤ) = (leVal k.reverse : ℤ) := rfl
  cases hc : (nafCore false k.reverse).2.2 with
  | false =>
    obtain ⟨hP, hN⟩ := NAF_carry_false k hc
    have hcf : (nafBitsAux false (bitsOfBytes k.reverse) false).2.2 = false := by
      rw [← h3]; exact hc
    rw [hcf] at hval
    simp only [if_false, Bool.false_eq_true, Int.zero_mul, zero_mul] at hval
    rw [hP, hN, hbk, ← hbv]
    omega
  | true =>
    obtain ⟨hP, hN⟩ := NAF_carry_true k hc
    have hcf : (nafBitsAux false (bitsOfBytes k.reverse) false).2.2 = true := by
      rw [← h3]; exact hc
    rw [hcf, hlen8] at hval
    norm_num at hval
    rw [hP, hN, hbk, ← hbv]
    push_cast
    linarith [hval]

/-- C2 witness: the reconstruction identity applied at the concrete byte
sequence `[3]` (where `NAF` recodes `3 = 4 - 1`). -/
theorem naf_reconstructs_witness :
    (∀ b ∈ [(3 : ℕ)], b < 256) ∧
    (beVal (NAF [3]).1 : ℤ) - (beVal (NAF [3]).2 : ℤ) = (beVal [3] : ℤ) :=
  ⟨by decide, naf_reconstructs [3] (by decide)⟩

/-- C3: the `NAF` outputs satisfy the non-adjacent-form invariant: no bit
position carries a digit in both the positive and the negative sequence, and
no two adjacent bit positions (across both sequences combined) both carry a
non-zero digit. -/
theorem naf_nonadjacent (k : List ℕ) (i : ℕ) :
    ¬((beVal (NAF k).1).testBit i = true ∧ (beVal (NAF k).2).testBit i = true) ∧
    ¬(((beVal (NAF k).1).testBit i = true ∨ (beVal (NAF k).2).testBit i = true) ∧
      ((beVal (NAF k).1).testBit (i + 1) = true ∨
        (beVal (NAF k).2).testBit (i + 1) = true)) := by
  have hlen8 : (bitsOfBytes k.reverse).length = 8 * k.length := by
    rw [bitsOfBytes_length, List.length_reverse]
  obtain ⟨_, _, h3⟩ := nafCore_flat k.reverse false
  obtain ⟨hlt1, hlt2⟩ := nafBitsAux_lt (bitsOfBytes k.reverse) false false
  rw [hlen8] at hlt1 hlt2
  have hdisj := nafBitsAux_disjoint (bitsOfBytes k.reverse) false false
  obtain ⟨hadj, _, hlast0⟩ := nafBitsAux_nonadj (bitsOfBytes k.reverse) false false
  cases hc : (nafCore false k.reverse).2.2 with
  | false =>
    obtain ⟨hP, hN⟩ := NAF_carry_false k hc
    rw [hP, hN]
    constructor
    · exact hdisj i
    · rintro ⟨ha, hb⟩
      refine hadj i ⟨?_, ?_⟩
      · rcases ha with ha | ha <;> simp [nafDigit, ha]
      · rcases hb with hb | hb <;> simp [nafDigit, hb]
  | true =>
    obtain ⟨hP, hN⟩ := NAF_carry_true k hc
    have hcf : (nafBitsAux false (bitsOfBytes k.reverse) false).2.2 = true := by
      rw [← h3]; exact hc
    have hlast : nafDigit (nafBitsAux false (bitsOfBytes k.reverse) false)
        (8 * k.length - 1) = false := by
      have := hlast0 rfl hcf
      rwa [hlen8] at this
    have hkne : k ≠ [] := by
      intro hk
      subst hk
      simp [nafCore] at hc
    have hL : 8 ≤ 8 * k.length := by
      have : 1 ≤ k.length := List.length_pos.mpr hkne
      omega
    have hPbit : ∀ j, (beVal (NAF k).1).testBit j =
        if j < 8 * k.length
        then (nafBitsAux false (bitsOfBytes k.reverse) false).1.testBit j
        else Nat.testBit 1 (j - 8 * k.length) := by
      intro j
      rw [hP]
      exact Nat.testBit_mul_pow_two_add 1 hlt1 j
    have hNhigh : ∀ j, 8 * k.length ≤ j → (beVal (NAF k).2).testBit j = false := by
      intro j hj
      rw [hN]
      exact Nat.testBit_lt_two_pow
        (lt_of_lt_of_le hlt2 (Nat.pow_le_pow_right (by norm_num) hj))
    constructor
    · rintro ⟨ha, hb⟩
      by_cases hiL : i < 8 * k.length
      · rw [hPbit i, if_pos hiL] at ha
        rw [hN] at hb
        exact hdisj i ⟨ha, hb⟩
      · have := hNhigh i (le_of_not_lt hiL)
        rw [this] at hb
        exact absurd hb (by simp)
    · rintro ⟨ha, hb⟩
      rcases Nat.lt_trichotomy (i + 1) (8 * k.length) with hlt | heq | hgt
      · have hiL : i < 8 * k.length := by omega
        refine hadj i ⟨?_, ?_⟩
        · rcases ha with ha | ha
          · rw [hPbit i, if_pos hiL] at ha
            simp [nafDigit, ha]
          · rw [hN] at ha
            simp [nafDigit, ha]
        · rcases hb with hb | hb
          · rw [hPbit (i + 1), if_pos hlt] at hb
            simp [nafDigit, hb]
          · rw [hN] at hb
            simp [nafDigit, hb]
      · have hiL : i < 8 * k.length := by omega
        have hi : i = 8 * k.length - 1 := by omega
        have hd1 : nafDigit (nafBitsAux false (bitsOfBytes k.reverse) false) i = true := by
          rcases ha with ha | ha
          · rw [hPbit i, if_pos hiL] at ha
            simp [nafDigit, ha]
          · rw [hN] at ha
            simp [nafDigit, ha]
        rw [hi, hlast] at hd1
        exact absurd hd1 (by simp)
      · have h1f : (beVal (NAF k).1).testBit (i + 1) = false := by
          rw [hPbit (i + 1), if_neg (by omega)]
          have hne : i + 1 - 8 * k.length ≠ 0 := by omega
          cases hj : i + 1 - 8 * k.length with
          | zero => exact absurd hj hne
          | succ j => simp [Nat.testBit_add_one]
        have h2f := hNhigh (i + 1) (by omega)
        rcases hb with hb | hb
        · rw [h1f] at hb
          exact absurd hb (by simp)
        · rw [h2f] at hb
          exact absurd hb (by simp)

theorem fInv_zero : fInv 0 = 0 := by decide

theorem fInv_one : fInv 1 = 1 := by decide

theorem toAffine_zZero : (fieldJacobianToBigAffine 0 0 0).2 = (0, 0) := by decide

theorem toAffine_zOne : (fieldJacobianToBigAffine 0 0 1).2 = (0, 0) := by decide

theorem toAffine_invS (q : F × F × F) (hq : InvS q) :
    (fieldJacobianToBigAffine q.1 q.2.1 q.2.2).2 = (0, 0) := by
  obtain ⟨hx, hy, hz⟩ := hq
  rcases hz with hz | hz
  · rw [hx, hy, hz]; exact toAffine_zZero
  · rw [hx, hy, hz]; exact toAffine_zOne

theorem double_invS (q : F × F × F) (hq : InvS q) :
    doubleJacobian q.1 q.2.1 q.2.2 = (0, 0, 0) := by
  rw [hq.2.1]
  simp [doubleJacobian]

theorem addJacobian_invS (q : F × F × F) (hq : InvS q) :
    InvS (addJacobian q.1 q.2.1 q.2.2 0 0 1) := by
  obtain ⟨hx, hy, hz⟩ := hq
  rcases hz with hz | hz
  · rw [hx, hy, hz]
    simp only [addJacobian, if_pos rfl]
    exact ⟨rfl, rfl, Or.inr rfl⟩
  · rw [hx, hy, hz]
    simp only [addJacobian, one_ne_zero, if_neg, if_pos rfl, addZ1EqualsZ2,
      doubleJacobian, if_true]
    simp
    exact ⟨rfl, rfl, Or.inl rfl⟩

theorem condAdd_invS (q : F × F × F) (hq : InvS q) (bp bn : Bool) :
    InvS (if bp then addJacobian q.1 q.2.1 q.2.2 0 0 1
          else if bn then addJacobian q.1 q.2.1 q.2.2 0 0 1 else q) := by
  cases bp with
  | true => simpa using addJacobian_invS q hq
  | false =>
    cases bn with
    | true => simpa using addJacobian_invS q hq
    | false => simpa using hq

theorem smBitStep_invS (q : F × F × F) (hq : InvS q) (d1p d1n d2p d2n : Bool) :
    InvS (smBitStep 0 0 0 0 0 0 q d1p d1n d2p d2n) := by
  have h1 : InvS ((0 : F), (0 : F), (0 : F)) := ⟨rfl, rfl, Or.inl rfl⟩
  simp only [smBitStep, double_invS q hq]
  exact condAdd_invS _ (condAdd_invS _ h1 d1p d1n) d2p d2n

theorem foldl_invS {α : Type} (l : List α) (f : (F × F × F) → α → (F × F × F))
    (hf : ∀ q a, InvS q → InvS (f q a)) :
    ∀ q, InvS q → InvS (l.foldl f q) := by
  induction l with
  | nil => intro q hq; simpa using hq
  | cons a tl ih => intro q hq; simpa using ih (f q a) (hf q a hq)

theorem smByteStep_invS (q : F × F × F) (hq : InvS q) (b1p b1n b2p b2n : ℕ) :
    InvS (smByteStep 0 0 0 0 0 0 q b1p b1n b2p b2n) := by
  simp only [smByteStep]
  exact foldl_invS _ _ (fun q t hq => smBitStep_invS q hq _ _ _ _) q hq

theorem natBE_zero : natBE 0 = [] := rfl

theorem splitK_nil : splitK [] = ([], [], 1, 1) := by decide

theorem naf_nil : NAF [] = ([], []) := rfl

/-- C4: `ScalarMult` edge conditions: a scalar that is zero or a multiple of
the group order `N` yields the affine identity `(0, 0)` for every base point,
and the affine identity input `(0, 0)` is carried through the Jacobian
machinery to `(0, 0)` for every scalar. -/
theorem scalarMult_edge_conditions :
    (∀ (Bx By : ℕ) (k : List ℕ), N ∣ beVal k → ScalarMult Bx By k = (0, 0)) ∧
    (∀ k : List ℕ, ScalarMult 0 0 k = (0, 0)) := by
  constructor
  · intro Bx By k hdvd
    have hred : moduloReduce k = [] := by
      rw [moduloReduce, Nat.mod_eq_zero_of_dvd hdvd, natBE_zero]
    simp only [ScalarMult, hred, splitK_nil, naf_nil, List.length_nil,
      Nat.max_self, Nat.sub_zero, List.range_zero, List.foldl_nil]
    exact toAffine_zZero
  · intro k
    simp only [ScalarMult, bigAffineToField, Nat.cast_zero, neg_zero,
      zero_mul, ite_self]
    exact toAffine_invS _
      (foldl_invS _ _ (fun q a hq => smByteStep_invS q hq _ _ _ _) _
        ⟨rfl, rfl, Or.inl rfl⟩)

/-- C4 witness: the zero-scalar case at base point `(5, 7)` and the
identity-point case at scalar `[3]`. -/
theorem scalarMult_edge_conditions_witness :
    N ∣ beVal [0] ∧ ScalarMult 5 7 [0] = (0, 0) ∧ ScalarMult 0 0 [3] = (0, 0) :=
  ⟨by rw [show beVal [0] = 0 from rfl]; exact dvd_zero N,
    scalarMult_edge_conditions.1 5 7 [0]
      (by rw [show beVal [0] = 0 from rfl]; exact dvd_zero N),
    scalarMult_edge_conditions.2 [3]⟩

theorem natLEAux_lt256 : ∀ fuel n : ℕ, ∀ b ∈ natLEAux fuel n, b < 256 := by
  intro fuel
  induction fuel with
  | zero => intro n b hb; simp [natLEAux] at hb
  | succ f ih =>
    intro n b hb
    by_cases hn : n = 0
    · simp [natLEAux, hn] at hb
    · simp only [natLEAux, if_neg hn, List.mem_cons] at hb
      rcases hb with hb | hb
      · subst hb; exact Nat.mod_lt n (by norm_num)
      · exact ih (n / 256) b hb

theorem natLEAux_length : ∀ fuel n f : ℕ, n < 256 ^ f → (natLEAux fuel n).length ≤ f := by
  intro fuel
  induction fuel with
  | zero => intro n f _; simp [natLEAux]
  | succ fl ih =>
    intro n f hf
    by_cases hn : n = 0
    · simp [natLEAux, hn]
    · cases f with
      | zero =>
        simp only [pow_zero] at hf
        exact absurd (by omega) hn
      | succ f2 =>
        simp only [natLEAux, if_neg hn, List.length_cons]
        have hdiv : n / 256 < 256 ^ f2 := by
          rw [Nat.div_lt_iff_lt_mul (by norm_num : 0 < 256)]
          calc n < 256 ^ (f2 + 1) := hf
            _ = 256 ^ f2 * 256 := by ring
        have := ih (n / 256) f2 hdiv
        omega

theorem moduloReduce_length (k : List ℕ) : (moduloReduce k).length ≤ 32 := by
  rw [moduloReduce, natBE, List.length_reverse, natLE]
  apply natLEAux_length
  calc beVal k % N < N := Nat.mod_lt _ (by norm_num [N])
    _ < 256 ^ 32 := by norm_num [N]

theorem moduloReduce_bytes (k : List ℕ) : ∀ b ∈ moduloReduce k, b < 256 := by
  intro b hb
  rw [moduloReduce, natBE, List.mem_reverse, natLE] at hb
  exact natLEAux_lt256 _ _ b hb

/-- C10: for every input byte sequence, the reduced scalar fed to
`ScalarBaseMult` has at most 32 bytes, so every table access the loop
performs uses a window index below 32 and a byte-value index below 256. -/
theorem scalarBaseMult_index_safe (k : List ℕ) :
    (moduloReduce k).length ≤ 32 ∧
    ∀ p ∈ scalarBaseMultIndices k, p.1 < 32 ∧ p.2 < 256 := by
  refine ⟨moduloReduce_length k, ?_⟩
  intro p hp
  simp only [scalarBaseMultIndices, List.mem_map] at hp
  obtain ⟨ib, hib, rfl⟩ := hp
  rw [List.mem_enum_iff_getElem?] at hib
  have hlt : ib.1 < (moduloReduce k).length := by
    by_contra hge
    rw [List.getElem?_eq_none (by omega)] at hib
    exact Option.noConfusion hib
  have hmem : ib.2 ∈ moduloReduce k := by
    rw [List.getElem?_eq_getElem hlt] at hib
    have hv : (moduloReduce k)[ib.1] = ib.2 := by injection hib
    rw [← hv]
    exact List.getElem_mem hlt
  constructor
  · have := moduloReduce_length k
    simp only []
    omega
  · exact moduloReduce_bytes k ib.2 hmem

/-- C10 witness: the bounds applied at the concrete scalar `[5]`, whose only
table access is window 31 with byte value 5. -/
theorem scalarBaseMult_index_safe_witness :
    ((31, 5) : ℕ × ℕ) ∈ scalarBaseMultIndices [5] ∧
    (moduloReduce [5]).length ≤ 32 ∧
    ((31, 5) : ℕ × ℕ).1 < 32 ∧ ((31, 5) : ℕ × ℕ).2 < 256 :=
  ⟨by decide,
   (scalarBaseMult_index_safe [5]).1,
   (scalarBaseMult_index_safe [5]).2 (31, 5) (by decide)⟩

/-- C8: the public affine addition satisfies the point-at-infinity identity:
adding the affine identity encoding `(0,0)` on either side returns the other
operand unchanged. -/
theorem add_identity (x y : ℕ) : Add 0 0 x y = (x, y) ∧ Add x y 0 0 = (x, y) := by
  constructor
  · simp [Add]
  · by_cases h : x = 0 ∧ y = 0
    · obtain ⟨hx, hy⟩ := h
      subst hx; subst hy
      simp [Add]
    · simp [Add, h]

/-- C9: the membership predicate rejects the affine identity encoding:
`IsOnCurve 0 0 = false`, because `0² ≠ 0³ + 7` mod `P`. -/
theorem isOnCurve_zero_zero : IsOnCurve 0 0 = false := by decide

/-- C7 counterexample: `fieldJacobianToBigAffine` does not leave its
field-element arguments unchanged: on the Jacobian input `(1, 1, 2)` the
final values of the caller's cells differ from the inputs (the `Z` cell is
overwritten with `1`). -/
theorem fieldJacobianToBigAffine_mutates :
    (fieldJacobianToBigAffine 1 1 2).1 ≠ ((1 : F), (1 : F), (2 : F)) := by
  intro h
  have h2 : ((fieldJacobianToBigAffine 1 1 2).1).2.2 = (2 : F) :=
    congrArg (fun t => t.2.2) h
  have h3 : (1 : F) = 2 := h2
  exact absurd h3 (by decide)

/-- C7 amended: `bigAffineToField` leaves its big-integer arguments
unchanged, while `fieldJacobianToBigAffine` produces fresh big-integer
outputs but overwrites its field-element arguments with the normalized
equivalent representative `(X·Z⁻², Y·Z⁻³, 1)`. -/
theorem converter_frame (x y : ℕ) (fx fy fz : F) :
    bigAffineToFieldST x y = ((x, y), ((x : F), (y : F))) ∧
    (fieldJacobianToBigAffine fx fy fz).1 =
      (fx * (fInv fz * fInv fz), fy * (fInv fz * fInv fz * fInv fz), 1) := by
  exact ⟨rfl, rfl⟩

/-- C6: on equal-Z inputs whose X coordinates agree, `addZ1EqualsZ2`
dispatches to `doubleJacobian` when the Y coordinates also agree, and
returns the all-zero infinity triple when they differ (the group-law
cancellation case). -/
theorem addZ1EqualsZ2_dispatch (x1 y1 z1 x2 y2 : F) :
    (x1 = x2 → y1 = y2 → addZ1EqualsZ2 x1 y1 z1 x2 y2 = doubleJacobian x1 y1 z1) ∧
    (x1 = x2 → y1 ≠ y2 → addZ1EqualsZ2 x1 y1 z1 x2 y2 = (0, 0, 0)) := by
  constructor
  · intro hx hy
    subst hx; subst hy
    simp [addZ1EqualsZ2]
  · intro hx hy
    subst hx
    simp [addZ1EqualsZ2, hy]

/-- C6 witness: concrete instances of both branches of the dispatch. -/
theorem addZ1EqualsZ2_dispatch_witness :
    (1 : F) ≠ 2 ∧
    addZ1EqualsZ2 1 1 1 1 1 = doubleJacobian 1 1 1 ∧
    addZ1EqualsZ2 1 1 1 1 2 = (0, 0, 0) :=
  ⟨by decide,
   (addZ1EqualsZ2_dispatch 1 1 1 1 1).1 rfl rfl,
   (addZ1EqualsZ2_dispatch 1 1 1 1 2).2 rfl (by decide)⟩

/-- C5: in the distinct-X case, `addZ1EqualsZ2` computes exactly the
intermediate-element breakdown `A = X2−X1`, `B = A²`, `C = Y2−Y1`, `D = C²`,
`E = X1·B`, `F = X2·B`, `X3 = D−E−F`, `Y3 = C·(E−X3) − Y1·(F−E)`,
`Z3 = Z1·A` as field equations mod `P`. -/
theorem addZ1EqualsZ2_formula (x1 y1 z1 x2 y2 : F) (h : x1 ≠ x2) :
    addZ1EqualsZ2 x1 y1 z1 x2 y2 =
      ((y2 - y1) * (y2 - y1) - x1 * ((x2 - x1) * (x2 - x1)) -
         x2 * ((x2 - x1) * (x2 - x1)),
       (y2 - y1) *
           (x1 * ((x2 - x1) * (x2 - x1)) -
             ((y2 - y1) * (y2 - y1) - x1 * ((x2 - x1) * (x2 - x1)) -
               x2 * ((x2 - x1) * (x2 - x1)))) -
         y1 * (x2 * ((x2 - x1) * (x2 - x1)) - x1 * ((x2 - x1) * (x2 - x1))),
       z1 * (x2 - x1)) := by
  simp only [addZ1EqualsZ2, if_neg h, Prod.mk.injEq]
  refine ⟨by ring, by ring, by ring⟩

/-- C5 witness: the formula instantiated at the concrete distinct-X input
`(0, 0, 1) + (1, 0, 1)`. -/
theorem addZ1EqualsZ2_formula_witness :
    (0 : F) ≠ 1 ∧
    addZ1EqualsZ2 0 0 1 1 0 =
      (((0 : F) - 0) * ((0 : F) - 0) - 0 * ((1 - 0) * (1 - 0)) -
         1 * ((1 - 0) * (1 - 0)),
       ((0 : F) - 0) *
           (0 * ((1 - 0) * (1 - 0)) -
             (((0 : F) - 0) * ((0 : F) - 0) - 0 * ((1 - 0) * (1 - 0)) -
               1 * ((1 - 0) * (1 - 0)))) -
         0 * (1 * ((1 - 0) * (1 - 0)) - 0 * ((1 - 0) * (1 - 0))),
       1 * ((1 : F) - 0)) :=
  ⟨by decide, addZ1EqualsZ2_formula 0 0 1 1 0 (by decide)⟩

end Secp256k1
